import Mathlib

/-!
Shallow embedding of the `dual_contouring` crate core:
geometry kind tables (`geom.rs`), Morton cell addressing (`morton.rs`),
octree topology (`topology.rs`), segment classification (`source.rs`),
mesh extraction (`extractor.rs`) and top-level construction (`lib.rs`).

Machine integers (`u64`, `u32`, `u8`) are modelled as `Nat` with explicit
`% 2 ^ w` where wrap-around can occur; `f32` scalar-field samples are
modelled as exact rationals (the classification and winding logic only
compares and negates sampled values, which is sign-exact), except for the
finiteness check of `DualContouring::new`, where the special values of a
float are modelled explicitly.
-/

/-- `geom.rs::BMask3`: a 3-bit corner mask stored in a `u8`. -/
structure BMask3 where
  bits : ℕ
deriving DecidableEq, Repr

namespace BMask3

def O : BMask3 := ⟨0⟩
def X : BMask3 := ⟨1⟩
def Y : BMask3 := ⟨2⟩
def Z : BMask3 := ⟨4⟩
def XY : BMask3 := ⟨1 ||| 2⟩
def XZ : BMask3 := ⟨1 ||| 4⟩
def YZ : BMask3 := ⟨2 ||| 4⟩
def XYZ : BMask3 := ⟨1 ||| 2 ||| 4⟩

/-- `BMask3::step`: OR of two masks. -/
def step (a b : BMask3) : BMask3 := ⟨a.bits ||| b.bits⟩

end BMask3

/-- `geom.rs::AxisKind`. -/
inductive AxisKind where
  | X
  | Y
  | Z
deriving DecidableEq, Repr

/-- `geom.rs::DirKind`: a single-axis direction (discriminants 1, 2, 4). -/
inductive DirKind where
  | X
  | Y
  | Z
deriving DecidableEq, Repr

namespace DirKind

/-- `DirKind::to_mask`: the discriminant as a mask (X=1, Y=2, Z=4). -/
def to_mask : DirKind → BMask3
  | .X => ⟨1⟩
  | .Y => ⟨2⟩
  | .Z => ⟨4⟩

/-- `DirKind::axis`: trailing-zero count of the discriminant, reinterpreted
as an axis (the `transmute` in the source, written as a total map). -/
def axis : DirKind → AxisKind
  | .X => .X
  | .Y => .Y
  | .Z => .Z

end DirKind

/-- `geom.rs::CornerKind`: a cube corner, as its corner mask. -/
structure CornerKind where
  m : BMask3
deriving DecidableEq, Repr

namespace CornerKind

/-- `CornerKind::ALL`: the 8 corners in fixed enumeration order. -/
def ALL : List CornerKind :=
  [⟨BMask3.O⟩, ⟨BMask3.X⟩, ⟨BMask3.Y⟩, ⟨BMask3.Z⟩,
   ⟨BMask3.XY⟩, ⟨BMask3.XZ⟩, ⟨BMask3.YZ⟩, ⟨BMask3.XYZ⟩]

end CornerKind

/-- `geom.rs::EdgeKind`: a cube edge given by a start corner and a direction. -/
structure EdgeKind where
  corner : CornerKind
  dir : DirKind
deriving DecidableEq, Repr

namespace EdgeKind

/-- `EdgeKind::ALL`, transcribed verbatim from the source table (including
its repeated `(XY, Z)` entry). -/
def ALL : List EdgeKind :=
  [⟨⟨BMask3.O⟩, .X⟩, ⟨⟨BMask3.O⟩, .Y⟩, ⟨⟨BMask3.O⟩, .Z⟩,
   ⟨⟨BMask3.X⟩, .Y⟩, ⟨⟨BMask3.X⟩, .Z⟩,
   ⟨⟨BMask3.Y⟩, .X⟩, ⟨⟨BMask3.Y⟩, .Z⟩,
   ⟨⟨BMask3.Z⟩, .X⟩, ⟨⟨BMask3.Z⟩, .Y⟩,
   ⟨⟨BMask3.XY⟩, .Z⟩, ⟨⟨BMask3.XZ⟩, .Y⟩, ⟨⟨BMask3.XY⟩, .Z⟩]

/-- `EdgeKind::axis`. -/
def axis (e : EdgeKind) : AxisKind := e.dir.axis

/-- `EdgeKind::endpoints`: the start corner and the corner one `step` along
the direction. -/
def endpoints (e : EdgeKind) : CornerKind × CornerKind :=
  (e.corner, ⟨e.corner.m.step e.dir.to_mask⟩)

end EdgeKind

/-- `morton.rs::MortonKey`: a 64-bit interleaved path code. The `u64`
payload is modelled as a natural number taken `% 2 ^ 64` wherever the
source shifts left. -/
structure MortonKey where
  val : ℕ
deriving DecidableEq, Repr

namespace MortonKey

/-- `MortonKey::LEVELS = (64 - 1) / 3`. -/
def LEVELS : ℕ := (64 - 1) / 3

/-- `MortonKey::root()`. -/
def root : MortonKey := ⟨0⟩

/-- `MortonKey::none()`. -/
def sentinel : MortonKey := ⟨0⟩

/-- `MortonKey::is_none`: the source tests `self.0 != 0`. -/
def is_none (k : MortonKey) : Bool := k.val != 0

/-- `MortonKey::parent`: shift right by 3 bits. -/
def parent (k : MortonKey) : MortonKey := ⟨k.val >>> 3⟩

/-- `MortonKey::child`: `(self.0 << 3) | index.bits()`, with the `u64`
left shift wrapping modulo `2 ^ 64`. -/
def child (k : MortonKey) (index : BMask3) : MortonKey :=
  ⟨((k.val <<< 3) % 2 ^ 64) ||| index.bits⟩

/-- `MortonKey::level`: `checked_ilog2().unwrap_or(0)`, i.e. the floor
base-2 logarithm, and `0` for the zero key. -/
def level (k : MortonKey) : ℕ := Nat.log2 k.val

end MortonKey

/-- `topology.rs::OctreeCell`: a cell, wrapping its Morton key. -/
structure OctreeCell where
  key : MortonKey
deriving DecidableEq, Repr

namespace OctreeCell

/-- `OctreeCell::new`: accepts `key` iff `!key.is_none()`. -/
def new (key : MortonKey) : Option OctreeCell :=
  if !key.is_none then some ⟨key⟩ else none

/-- `OctreeCell::sub_cell`. -/
def sub_cell (c : OctreeCell) (corner : CornerKind) : OctreeCell :=
  ⟨c.key.child corner.m⟩

/-- `OctreeCell::sub_cells`: the children, one per `CornerKind::ALL` entry. -/
def sub_cells (c : OctreeCell) : List OctreeCell :=
  CornerKind.ALL.map (fun corner => c.sub_cell corner)

/-- `OctreeCell::edge_sub_cells`: the sub-cells at an edge's two endpoints. -/
def edge_sub_cells (c : OctreeCell) (edge : EdgeKind) : OctreeCell × OctreeCell :=
  (c.sub_cell edge.endpoints.1, c.sub_cell edge.endpoints.2)

end OctreeCell

/-- `topology.rs::OctreeFace`: normal axis plus the two neighbor sub-cells. -/
structure OctreeFace where
  normal : AxisKind
  neighbors : OctreeCell × OctreeCell
deriving DecidableEq, Repr

namespace OctreeFace

/-- `OctreeFace::from_edge`. -/
def from_edge (cell : OctreeCell) (edge : EdgeKind) : OctreeFace :=
  { normal := edge.axis, neighbors := cell.edge_sub_cells edge }

end OctreeFace

/-- `OctreeCell::interior_faces`: one face per `EdgeKind::ALL` entry. -/
def OctreeCell.interior_faces (c : OctreeCell) : List OctreeFace :=
  EdgeKind.ALL.map (fun edge => OctreeFace.from_edge c edge)

/-- `glam::Vec3`, with exact rational coordinates. -/
structure Vec3 where
  x : ℚ
  y : ℚ
  z : ℚ
deriving DecidableEq, Repr

namespace Vec3

def zero : Vec3 := ⟨0, 0, 0⟩

def add (a b : Vec3) : Vec3 := ⟨a.x + b.x, a.y + b.y, a.z + b.z⟩

def sub (a b : Vec3) : Vec3 := ⟨a.x - b.x, a.y - b.y, a.z - b.z⟩

def dot (a b : Vec3) : ℚ := a.x * b.x + a.y * b.y + a.z * b.z

def cross (a b : Vec3) : Vec3 :=
  ⟨a.y * b.z - a.z * b.y, a.z * b.x - a.x * b.z, a.x * b.y - a.y * b.x⟩

def divScalar (a : Vec3) (s : ℚ) : Vec3 := ⟨a.x / s, a.y / s, a.z / s⟩

def neg (a : Vec3) : Vec3 := ⟨-a.x, -a.y, -a.z⟩

end Vec3

/-- `source.rs::Endpoint`. -/
inductive Endpoint where
  | start
  | stop
deriving DecidableEq, Repr

/-- `source.rs::ClassifySegment`. -/
inductive ClassifySegment where
  | changes_sign (v0 v1 : ℚ)
  | intersects (e : Endpoint) (v : ℚ)
  | no_solution
  | indeterminate
deriving DecidableEq, Repr

/-- Whether a classification outcome is an endpoint intersection at the
segment's start. -/
def ClassifySegment.intersects_start : ClassifySegment → Bool
  | .intersects .start _ => true
  | _ => false

/-- Whether a classification outcome is an endpoint intersection at the
segment's end. -/
def ClassifySegment.intersects_stop : ClassifySegment → Bool
  | .intersects .stop _ => true
  | _ => false

/-- `f32::is_sign_negative`, on an exact (nonzero-or-positive-zero) sample. -/
def is_sign_negative (v : ℚ) : Bool := decide (v < 0)

/-- `Source::classify_segment`, for a pure scalar field `f`. The source
matches on `(|v_start| <= eps, |v_end| <= eps)`:
`(true, false)` is an intersection at the start carrying `v_start`,
`(true, true)` is indeterminate, `(false, true)` is no-solution, and
`(false, false)` reports a sign change iff the endpoint signs differ. -/
def classify_segment (f : Vec3 → ℚ) (s e : Vec3) (epsilon : ℚ) : ClassifySegment :=
  let v_start := f s
  let v_end := f e
  if |v_start| ≤ epsilon then
    if |v_end| ≤ epsilon then ClassifySegment.indeterminate
    else ClassifySegment.intersects .start v_start
  else
    if |v_end| ≤ epsilon then ClassifySegment.no_solution
    else
      if is_sign_negative v_start != is_sign_negative v_end then
        ClassifySegment.changes_sign v_start v_end
      else ClassifySegment.no_solution

/-- `extractor.rs::SeparateNormals`: parallel position and normal buffers. -/
structure SeparateNormals where
  positions : List Vec3
  normals : List Vec3
deriving DecidableEq, Repr

/-- `extractor.rs::IndexedSeparateNormals`. Face index triples (`[u32; 3]`)
are modelled as triples of naturals. -/
structure IndexedSeparateNormals where
  vertices : SeparateNormals
  faces : List (ℕ × ℕ × ℕ)
deriving DecidableEq, Repr

/-- `IndexedSeparateNormals::default()`: empty buffers. -/
def IndexedSeparateNormals.empty : IndexedSeparateNormals :=
  { vertices := { positions := [], normals := [] }, faces := [] }

/-- `extractor.rs::plane_normal`: `(p1 - p0) × (p2 - p1)`. -/
def plane_normal (p0 p1 p2 : Vec3) : Vec3 :=
  (p1.sub p0).cross (p2.sub p1)

/-- `WithIndexedSeparateNormals::average_vertex_normal`: arithmetic mean of
the three stored vertex normals of a face. -/
def average_vertex_normal (buf : IndexedSeparateNormals) (face : ℕ × ℕ × ℕ) : Vec3 :=
  let n := fun i => buf.vertices.normals.getD i Vec3.zero
  (((n face.1).add ((n face.2.1).add (n face.2.2)))).divScalar 3

/-- `WithIndexedSeparateNormals::face_plane_normal`. -/
def face_plane_normal (buf : IndexedSeparateNormals) (face : ℕ × ℕ × ℕ) : Vec3 :=
  let p := fun i => buf.vertices.positions.getD i Vec3.zero
  plane_normal (p face.1) (p face.2.1) (p face.2.2)

/-- `WithIndexedSeparateNormals::extract_vertex`: append the position, and
append the normal sampled at that position (`src` is the Hermite field's
`sample_normal` capability). -/
def extract_vertex (src : Vec3 → Vec3) (buf : IndexedSeparateNormals)
    (position : Vec3) : IndexedSeparateNormals :=
  { buf with
      vertices :=
        { positions := buf.vertices.positions ++ [position],
          normals := buf.vertices.normals ++ [src position] } }

/-- `WithIndexedSeparateNormals::extract_face`: reverse the index triple
(`[u32; 3]::reverse`, i.e. swap first and last) when the averaged vertex
normal and the analytic plane normal disagree in sign, then store it. -/
def extract_face (buf : IndexedSeparateNormals) (face : ℕ × ℕ × ℕ) :
    IndexedSeparateNormals :=
  let n := average_vertex_normal buf face
  let stored :=
    if n.dot (face_plane_normal buf face) < 0 then (face.2.2, face.2.1, face.1)
    else face
  { buf with faces := buf.faces ++ [stored] }

/-- An `f32` configuration value, modelled as an exact rational when finite
together with the non-finite special values. -/
inductive F32 where
  | finite (q : ℚ)
  | inf
  | neg_inf
  | nan
deriving DecidableEq, Repr

/-- `f32::is_finite`. -/
def F32.is_finite : F32 → Bool
  | .finite _ => true
  | _ => false

/-- The comparison `x > 0.0` on an `f32` (false on NaN). -/
def F32.gt_zero : F32 → Bool
  | .finite q => decide (0 < q)
  | .inf => true
  | _ => false

/-- Binary population count of a natural number, modelling
`u32::count_ones`. -/
def count_ones : ℕ → ℕ
  | 0 => 0
  | n + 1 => (n + 1) % 2 + count_ones ((n + 1) / 2)
decreasing_by exact Nat.div_lt_self (Nat.succ_pos n) (by omega)

/-- `u32::is_power_of_two`: `count_ones() == 1`. -/
def is_power_of_two (n : ℕ) : Bool := count_ones n == 1

/-- `lib.rs::DualContouring`. -/
structure DualContouring (S : Type) where
  source : S
  max_res : ℕ
  epsilon : F32
deriving Repr

/-- `DualContouring::new`: asserts that `max_res` is a power of two and
that `epsilon` is finite and greater than zero; a failed assertion
(a construction-time panic) is modelled as `none`. -/
def DualContouring.new {S : Type} (source : S) (max_res : ℕ) (epsilon : F32) :
    Option (DualContouring S) :=
  if is_power_of_two max_res then
    if epsilon.is_finite then
      if epsilon.gt_zero then some ⟨source, max_res, epsilon⟩
      else none
    else none
  else none

/-! ## Helper lemmas -/

/-- ORing a multiple of `2 ^ k` with a value below `2 ^ k` is addition. -/
theorem two_pow_mul_or_eq_add (k : ℕ) :
    ∀ b m : ℕ, m < 2 ^ k → (2 ^ k * b) ||| m = 2 ^ k * b + m := by
  induction k with
  | zero =>
    intro b m hm
    interval_cases m
    simp
  | succ k ih =>
    intro b m hm
    have hpow : 2 ^ (k + 1) * b = 2 * (2 ^ k * b) := by ring
    have hppow : (2 : ℕ) ^ (k + 1) = 2 * 2 ^ k := by ring
    have hm' : m < 2 * 2 ^ k := by omega
    have hdiv : ((2 ^ (k + 1) * b) ||| m) / 2 = 2 ^ k * b + m / 2 := by
      rw [Nat.or_div_two, hpow]
      have h1 : 2 * (2 ^ k * b) / 2 = 2 ^ k * b := by omega
      rw [h1]
      exact ih b (m / 2) (by omega)
    have heven : (2 ^ (k + 1) * b) % 2 = 0 := by rw [hpow]; omega
    have hmod : ((2 ^ (k + 1) * b) ||| m) % 2 = m % 2 := by
      rcases Nat.mod_two_eq_zero_or_one m with h | h
      · have hne : ¬ ((2 ^ (k + 1) * b ||| m) % 2 = 1) := by
          rw [Nat.or_mod_two_eq_one]
          omega
        omega
      · have hone : (2 ^ (k + 1) * b ||| m) % 2 = 1 := by
          rw [Nat.or_mod_two_eq_one]
          omega
        omega
    have hsplit := Nat.div_add_mod ((2 ^ (k + 1) * b) ||| m) 2
    rw [hpow] at hdiv hmod hsplit ⊢
    omega

/-- The value of a child key: the parent's low 61 bits shifted up by one
level with the corner mask in the bottom 3 bits. -/
theorem child_val (k : MortonKey) (m : BMask3) (hm : m.bits < 8) :
    (k.child m).val = 8 * (k.val % 2 ^ 61) + m.bits := by
  show ((k.val <<< 3) % 2 ^ 64) ||| m.bits = _
  rw [Nat.shiftLeft_eq]
  have h1 : k.val * 2 ^ 3 % 2 ^ 64 = 2 ^ 3 * (k.val % 2 ^ 61) := by omega
  rw [h1, two_pow_mul_or_eq_add 3 (k.val % 2 ^ 61) m.bits (by omega)]
  norm_num

/-- Reversing the vertex order of a triangle negates its plane normal. -/
theorem plane_normal_reverse (p0 p1 p2 : Vec3) :
    plane_normal p2 p1 p0 = (plane_normal p0 p1 p2).neg := by
  simp only [plane_normal, Vec3.sub, Vec3.cross, Vec3.neg, Vec3.mk.injEq]
  refine ⟨by ring, by ring, by ring⟩

/-- Dot product with a negated vector. -/
theorem dot_neg (a b : Vec3) : a.dot b.neg = -(a.dot b) := by
  simp only [Vec3.dot, Vec3.neg]
  ring

/-! ## Claims -/

/-- Claim C2 (code bug): the spec requires that every key reachable from
the root by `child()` steps yields a present cell, but `is_none` is
written as `self.0 != 0`, so `OctreeCell::new` rejects every nonzero key —
in particular the root's own child at corner `X` — while accepting the
zero key, which is also the `none()` sentinel. -/
theorem octree_cell_new_rejects_reachable_key :
    OctreeCell.new (MortonKey.root.child BMask3.X) = none ∧
    OctreeCell.new MortonKey.root = some ⟨MortonKey.root⟩ ∧
    MortonKey.root = MortonKey.sentinel := by
  decide

/-- Claim C4 (code bug): `level()` is `checked_ilog2().unwrap_or(0)`, the
bit length minus one, not the number of 3-bit octree levels consumed: the
depth-1 key reached by `root.child(X)` has level 0 (the claim requires 1),
and the depth-2 key reached by `root.child(X).child(O)` has level 3 (the
claim requires 2), so a child's level is not its parent's level plus one. -/
theorem level_is_not_descent_count :
    MortonKey.root.child BMask3.X = ⟨1⟩ ∧
    MortonKey.level ⟨1⟩ = 0 ∧
    (MortonKey.mk 1).child BMask3.O = ⟨8⟩ ∧
    MortonKey.level ⟨8⟩ = 3 := by
  refine ⟨by decide, ?_, by decide, ?_⟩
  · show Nat.log2 1 = 0
    rw [Nat.log2_eq_log_two]
    exact Nat.log_eq_of_pow_le_of_lt_pow (by norm_num) (by norm_num)
  · show Nat.log2 8 = 3
    rw [Nat.log2_eq_log_two]
    exact Nat.log_eq_of_pow_le_of_lt_pow (by norm_num) (by norm_num)

/-- Claim C3 (code bug): `EdgeKind::ALL` lists the edge `(XY, Z)` twice
(entries 9 and 11) and omits the cube edge `(YZ, X)`, so `interior_faces`
yields 12 faces that are not pairwise distinct and misses the face that
the spec assigns to the `(YZ, X)` edge; the duplicate entries produce
equal faces. -/
theorem interior_faces_duplicate_face :
    ((OctreeCell.mk MortonKey.root).interior_faces).length = 12 ∧
    ((OctreeCell.mk MortonKey.root).interior_faces)[9]? =
      ((OctreeCell.mk MortonKey.root).interior_faces)[11]? ∧
    ¬ ((OctreeCell.mk MortonKey.root).interior_faces).Nodup ∧
    OctreeFace.from_edge (OctreeCell.mk MortonKey.root) ⟨⟨BMask3.YZ⟩, DirKind.X⟩ ∉
      (OctreeCell.mk MortonKey.root).interior_faces := by
  decide

/-- The scalar field `f(p) = p.x - 1`. -/
def field_x_minus_one : Vec3 → ℚ := fun p => p.x - 1

/-- The scalar field `f(p) = p.x`. -/
def field_x : Vec3 → ℚ := fun p => p.x

/-- Claim C1 counterexample: for `f(p) = p.x - 1` on the segment from the
origin to `(1,0,0)` with `epsilon = 1/2`, only the end endpoint's sample
(`0`) lies within epsilon of zero, yet `classify_segment` reports
no-solution rather than an intersection at the end endpoint. -/
theorem classify_segment_end_endpoint_counterexample :
    ¬ |field_x_minus_one ⟨0, 0, 0⟩| ≤ 1 / 2 ∧
    |field_x_minus_one ⟨1, 0, 0⟩| ≤ 1 / 2 ∧
    classify_segment field_x_minus_one ⟨0, 0, 0⟩ ⟨1, 0, 0⟩ (1 / 2) =
      ClassifySegment.no_solution := by
  refine ⟨by norm_num [field_x_minus_one], by norm_num [field_x_minus_one], ?_⟩
  unfold classify_segment field_x_minus_one
  norm_num

/-- Claim C1 (amended): when exactly one endpoint sample lies within
`epsilon` of zero, `classify_segment` reports an endpoint intersection,
carrying the start's sampled value, only when that endpoint is the start;
when only the end endpoint's sample is within `epsilon` of zero the result
is no-solution, deliberately leaving the crossing to the adjacent segment
that owns it as a start endpoint. -/
theorem classify_segment_single_endpoint (f : Vec3 → ℚ) (s e : Vec3)
    (epsilon : ℚ) (hse : s ≠ e) (heps : 0 < epsilon) :
    (|f s| ≤ epsilon → ¬ |f e| ≤ epsilon →
      classify_segment f s e epsilon = ClassifySegment.intersects .start (f s)) ∧
    (¬ |f s| ≤ epsilon → |f e| ≤ epsilon →
      classify_segment f s e epsilon = ClassifySegment.no_solution) := by
  constructor <;> intro h1 h2 <;> simp [classify_segment, h1, h2]

/-- Witness for the amended claim C1, on the concrete fields `p.x` (start
endpoint within epsilon) and `p.x - 1` (end endpoint within epsilon). -/
theorem classify_segment_single_endpoint_witness :
    classify_segment field_x ⟨0, 0, 0⟩ ⟨1, 0, 0⟩ (1 / 2) =
      ClassifySegment.intersects .start 0 ∧
    classify_segment field_x_minus_one ⟨0, 0, 0⟩ ⟨1, 0, 0⟩ (1 / 2) =
      ClassifySegment.no_solution := by
  constructor
  · have h := (classify_segment_single_endpoint field_x ⟨0, 0, 0⟩ ⟨1, 0, 0⟩
      (1 / 2) (by simp [Vec3.mk.injEq]) (by norm_num)).1
      (by norm_num [field_x]) (by norm_num [field_x])
    simpa [field_x] using h
  · exact (classify_segment_single_endpoint field_x_minus_one ⟨0, 0, 0⟩
      ⟨1, 0, 0⟩ (1 / 2) (by simp [Vec3.mk.injEq]) (by norm_num)).2
      (by norm_num [field_x_minus_one]) (by norm_num [field_x_minus_one])

/-- Claim C5: for every pure scalar field, segment and positive epsilon,
`classify_segment` never reports both endpoints of the segment as
intersecting — its single outcome cannot be an intersection at the start
and at the end simultaneously. -/
theorem classify_segment_endpoint_exclusive (f : Vec3 → ℚ) (s e : Vec3)
    (epsilon : ℚ) (hse : s ≠ e) (heps : 0 < epsilon) :
    ((classify_segment f s e epsilon).intersects_start &&
      (classify_segment f s e epsilon).intersects_stop) = false := by
  by_cases h1 : |f s| ≤ epsilon <;> by_cases h2 : |f e| ≤ epsilon <;>
    cases hb : is_sign_negative (f s) != is_sign_negative (f e) <;>
      simp [classify_segment, h1, h2, hb,
        ClassifySegment.intersects_start, ClassifySegment.intersects_stop]

/-- Witness for claim C5 at a concrete field, segment and epsilon. -/
theorem classify_segment_endpoint_exclusive_witness :
    ((classify_segment field_x ⟨0, 0, 0⟩ ⟨1, 0, 0⟩ 1).intersects_start &&
      (classify_segment field_x ⟨0, 0, 0⟩ ⟨1, 0, 0⟩ 1).intersects_stop) = false :=
  classify_segment_endpoint_exclusive field_x ⟨0, 0, 0⟩ ⟨1, 0, 0⟩ 1
    (by simp [Vec3.mk.injEq]) (by norm_num)

/-- Claim C7: `sub_cells()` yields exactly 8 pairwise-distinct cells, in
the fixed `CornerKind::ALL` corner-mask enumeration order, whose keys are
the parent's key shifted left 3 bits (wrapping in the `u64`) with each of
the 8 corner-mask values 0–7 OR-ed in. -/
theorem sub_cells_spec (c : OctreeCell) :
    (c.sub_cells).length = 8 ∧
    (c.sub_cells).Nodup ∧
    (c.sub_cells).map (fun sc => sc.key.val) =
      [0, 1, 2, 4, 3, 5, 6, 7].map
        (fun m => ((c.key.val <<< 3) % 2 ^ 64) ||| m) ∧
    ((c.sub_cells).map (fun sc => sc.key.val)).Perm
      ((List.range 8).map (fun m => ((c.key.val <<< 3) % 2 ^ 64) ||| m)) := by
  have hv : ∀ m : ℕ, m < 8 →
      (((c.key.val <<< 3) % 2 ^ 64) ||| m) = 8 * (c.key.val % 2 ^ 61) + m := by
    intro m hm
    exact child_val c.key ⟨m⟩ hm
  have hmap : (c.sub_cells).map (fun sc => sc.key.val) =
      [0, 1, 2, 4, 3, 5, 6, 7].map
        (fun m => ((c.key.val <<< 3) % 2 ^ 64) ||| m) := rfl
  refine ⟨rfl, ?_, hmap, ?_⟩
  · refine List.Nodup.of_map (fun sc => sc.key.val) ?_
    rw [hmap]
    simp only [List.map_cons, List.map_nil,
      hv 0 (by norm_num), hv 1 (by norm_num), hv 2 (by norm_num),
      hv 4 (by norm_num), hv 3 (by norm_num), hv 5 (by norm_num),
      hv 6 (by norm_num), hv 7 (by norm_num)]
    simp [List.nodup_cons, List.mem_cons, add_right_inj]
  · rw [hmap]
    exact List.Perm.map _ (by decide)

/-- Claim C8: for a key whose top 3 bits are zero and any 3-bit corner
mask, descending with `child` and ascending with `parent` round-trips to
the original key. -/
theorem parent_child_roundtrip (k : MortonKey) (m : BMask3)
    (hk : k.val < 2 ^ 61) (hm : m.bits < 8) :
    (k.child m).parent = k := by
  have h := child_val k m hm
  have hval : (k.child m).val >>> 3 = k.val := by
    rw [h, Nat.shiftRight_eq_div_pow]
    have hmod : k.val % 2 ^ 61 = k.val := Nat.mod_eq_of_lt hk
    rw [hmod]
    omega
  calc (k.child m).parent = ⟨(k.child m).val >>> 3⟩ := rfl
    _ = ⟨k.val⟩ := by rw [hval]
    _ = k := rfl

/-- Witness for claim C8: the root key and the `X` corner mask. -/
theorem parent_child_roundtrip_witness :
    (MortonKey.root.child BMask3.X).parent = MortonKey.root :=
  parent_child_roundtrip MortonKey.root BMask3.X
    (by norm_num [MortonKey.root]) (by norm_num [BMask3.X])

/-- Claim C6: `extract_face` stores the input triple unchanged when the
averaged vertex normal and the analytic plane normal agree in sign
(non-negative dot product); when the dot product is negative it stores the
reversal (first and last index swapped, middle unchanged), and the stored
order's analytic plane normal then has a non-negative dot product with
the averaged vertex normal. -/
theorem extract_face_winding (buf : IndexedSeparateNormals) (a b c : ℕ)
    (hpa : a < buf.vertices.positions.length)
    (hpb : b < buf.vertices.positions.length)
    (hpc : c < buf.vertices.positions.length)
    (hna : a < buf.vertices.normals.length)
    (hnb : b < buf.vertices.normals.length)
    (hnc : c < buf.vertices.normals.length) :
    ((average_vertex_normal buf (a, b, c)).dot (face_plane_normal buf (a, b, c)) < 0 →
      (extract_face buf (a, b, c)).faces = buf.faces ++ [(c, b, a)] ∧
      0 ≤ (average_vertex_normal buf (a, b, c)).dot (face_plane_normal buf (c, b, a))) ∧
    (0 ≤ (average_vertex_normal buf (a, b, c)).dot (face_plane_normal buf (a, b, c)) →
      (extract_face buf (a, b, c)).faces = buf.faces ++ [(a, b, c)]) := by
  have hrev : face_plane_normal buf (c, b, a) = (face_plane_normal buf (a, b, c)).neg := by
    simp only [face_plane_normal]
    exact plane_normal_reverse _ _ _
  constructor
  · intro hd
    constructor
    · simp only [extract_face, if_pos hd]
    · rw [hrev, dot_neg]
      linarith
  · intro hd
    have hnotlt : ¬ (average_vertex_normal buf (a, b, c)).dot
        (face_plane_normal buf (a, b, c)) < 0 := not_lt.mpr hd
    simp only [extract_face, if_neg hnotlt]

/-- A concrete three-vertex buffer whose averaged vertex normal `(0,0,-1)`
disagrees with the analytic plane normal `(0,0,1)` of the triple `(0,1,2)`. -/
def demo_buf : IndexedSeparateNormals :=
  { vertices :=
      { positions := [⟨0, 0, 0⟩, ⟨1, 0, 0⟩, ⟨0, 1, 0⟩],
        normals := [⟨0, 0, -1⟩, ⟨0, 0, -1⟩, ⟨0, 0, -1⟩] },
    faces := [] }

/-- Witness for claim C6 on `demo_buf`: the triple `(0,1,2)` is stored
reversed as `(2,1,0)` and the stored order's plane normal agrees with the
averaged normal. -/
theorem extract_face_winding_witness :
    (extract_face demo_buf (0, 1, 2)).faces = [(2, 1, 0)] ∧
    0 ≤ (average_vertex_normal demo_buf (0, 1, 2)).dot
          (face_plane_normal demo_buf (2, 1, 0)) := by
  have h := (extract_face_winding demo_buf 0 1 2
    (by norm_num [demo_buf]) (by norm_num [demo_buf]) (by norm_num [demo_buf])
    (by norm_num [demo_buf]) (by norm_num [demo_buf]) (by norm_num [demo_buf])).1
    (by norm_num [demo_buf, average_vertex_normal, face_plane_normal,
      plane_normal, Vec3.dot, Vec3.add, Vec3.sub, Vec3.cross, Vec3.divScalar,
      Vec3.zero, List.getD])
  simpa [demo_buf] using h

/-- Claim C9: the position and normal buffers have equal length for a
fresh buffer; `extract_vertex` appends exactly one position and one normal
(the one sampled at that position); and `extract_face` leaves the vertex
buffers untouched — so index `i` in one buffer always corresponds to
index `i` in the other. -/
theorem vertex_buffers_parallel :
    IndexedSeparateNormals.empty.vertices.positions.length =
      IndexedSeparateNormals.empty.vertices.normals.length ∧
    (∀ (src : Vec3 → Vec3) (buf : IndexedSeparateNormals) (p : Vec3),
      (extract_vertex src buf p).vertices.positions =
        buf.vertices.positions ++ [p] ∧
      (extract_vertex src buf p).vertices.normals =
        buf.vertices.normals ++ [src p]) ∧
    (∀ (buf : IndexedSeparateNormals) (face : ℕ × ℕ × ℕ),
      (extract_face buf face).vertices = buf.vertices) :=
  ⟨rfl, fun _ _ _ => ⟨rfl, rfl⟩, fun _ _ => rfl⟩

/-- `count_ones n = 0` exactly for `n = 0`. -/
theorem count_ones_eq_zero_iff (n : ℕ) : count_ones n = 0 ↔ n = 0 := by
  induction n using Nat.strong_induction_on with
  | _ n ih =>
    rcases n with _ | m
    · simp [count_ones]
    · simp only [count_ones]
      constructor
      · intro h
        have h2 : count_ones ((m + 1) / 2) = 0 := by omega
        have h3 := (ih ((m + 1) / 2) (by omega)).mp h2
        omega
      · intro h
        omega

/-- `count_ones n = 1` exactly when `n` is a power of two. -/
theorem count_ones_eq_one_iff (n : ℕ) : count_ones n = 1 ↔ ∃ k, n = 2 ^ k := by
  induction n using Nat.strong_induction_on with
  | _ n ih =>
    rcases n with _ | m
    · constructor
      · intro h
        simp [count_ones] at h
      · rintro ⟨k, hk⟩
        have := Nat.one_le_two_pow (n := k)
        omega
    · simp only [count_ones]
      rcases Nat.mod_two_eq_zero_or_one (m + 1) with hpar | hpar
      · rw [hpar, zero_add, ih ((m + 1) / 2) (by omega)]
        constructor
        · rintro ⟨k, hk⟩
          refine ⟨k + 1, ?_⟩
          rw [pow_succ]
          omega
        · rintro ⟨k, hk⟩
          rcases k with _ | k2
          · rw [pow_zero] at hk
            exfalso
            omega
          · refine ⟨k2, ?_⟩
            rw [pow_succ] at hk
            omega
      · rw [hpar]
        constructor
        · intro h
          have h2 : count_ones ((m + 1) / 2) = 0 := by omega
          have h3 := (count_ones_eq_zero_iff ((m + 1) / 2)).mp h2
          refine ⟨0, ?_⟩
          rw [pow_zero]
          omega
        · rintro ⟨k, hk⟩
          rcases k with _ | k2
          · rw [pow_zero] at hk
            have hm : m = 0 := by omega
            subst hm
            norm_num [count_ones]
          · exfalso
            rw [pow_succ] at hk
            omega

/-- Claim C10: `DualContouring::new` fails (panics) exactly when the given
max resolution is not a power of two, or epsilon is not finite, or epsilon
is not greater than zero; for all other inputs it succeeds and stores the
arguments unmodified. -/
theorem dual_contouring_new_validation {S : Type} (src : S) (max_res : ℕ)
    (epsilon : F32) (hres : max_res < 2 ^ 32) :
    (DualContouring.new src max_res epsilon = none ↔
      (¬ ∃ k, max_res = 2 ^ k) ∨ epsilon.is_finite = false ∨
        epsilon.gt_zero = false) ∧
    ((∃ k, max_res = 2 ^ k) → epsilon.is_finite = true →
      epsilon.gt_zero = true →
      DualContouring.new src max_res epsilon = some ⟨src, max_res, epsilon⟩) := by
  have hpow : is_power_of_two max_res = true ↔ ∃ k, max_res = 2 ^ k := by
    rw [is_power_of_two, beq_iff_eq]
    exact count_ones_eq_one_iff max_res
  unfold DualContouring.new
  split_ifs with h1 h2 h3
  · exact ⟨by simp [h2, h3, hpow.mp h1], fun _ _ _ => rfl⟩
  · have h3' : epsilon.gt_zero = false := by
      cases hq : epsilon.gt_zero
      · rfl
      · exact absurd hq h3
    exact ⟨by simp [h3'], fun _ _ hg => absurd hg (by simp [h3'])⟩
  · have h2' : epsilon.is_finite = false := by
      cases hq : epsilon.is_finite
      · rfl
      · exact absurd hq h2
    exact ⟨by simp [h2'], fun _ hf _ => absurd hf (by simp [h2'])⟩
  · have h1' : ¬ ∃ k, max_res = 2 ^ k := fun hex => h1 (hpow.mpr hex)
    exact ⟨by simp [h1'], fun hex _ _ => absurd hex h1'⟩

/-- Witness for claim C10: resolution 4 with a finite positive epsilon is
accepted and stored unmodified. -/
theorem dual_contouring_new_validation_witness :
    DualContouring.new (0 : ℕ) 4 (F32.finite 1) =
      some ⟨0, 4, F32.finite 1⟩ :=
  (dual_contouring_new_validation (0 : ℕ) 4 (F32.finite 1) (by norm_num)).2
    ⟨2, by norm_num⟩ rfl (by norm_num [F32.gt_zero])
